import Mathlib

/-!
Verification of the migration control core of the `snowflakemigration` repository.

The Python sources (`agents/executor.py`, `agents/schema_analyzer.py`,
`agents/planner.py`) are shallowly embedded below: Python strings become
`List Char`, dictionaries parsed from JSON become a `Json` value type,
the stateful loops become explicit recursion over the environment's
per-iteration outcomes, and the external collaborators (the LLM client
and the Jupyter kernel) are abstracted as the data they feed back into
the loops.
-/

namespace SnowMig

/-- Characters of a Python `str`, modelled as a list of unicode code points
(Python string indexing and slicing are code-point based). -/
abbrev Str := List Char

/-- The ASCII whitespace removed by Python `str.strip()` (the unicode
whitespace extensions are irrelevant to the embedded code paths). -/
def isPySpace (c : Char) : Bool :=
  c = ' ' || c = '\t' || c = '\n' || c = '\r' || c = '\x0b' || c = '\x0c'

/-- Python `s.strip()`. -/
def pyStrip (s : Str) : Str :=
  ((s.dropWhile isPySpace).reverse.dropWhile isPySpace).reverse

/-- Python `s[a:b]` for `0 ≤ a ≤ b` (both ends clamped to the length). -/
def pySlice (s : Str) (a b : Nat) : Str := (s.take b).drop a

/-- Worker of `strFind`: index (offset by `i`) of the first occurrence of
`needle` in the remaining haystack. -/
def strFindAux (needle : Str) : Str → Nat → Option Nat
  | [], i => if needle.isEmpty then some i else none
  | c :: cs, i =>
    if needle.isPrefixOf (c :: cs) then some i else strFindAux needle cs (i + 1)

/-- Python `hay.find(needle)`; `none` models Python's `-1`. -/
def strFind (hay needle : Str) : Option Nat := strFindAux needle hay 0

/-- Python `hay.find(needle, start)` (for nonempty needles). -/
def strFindFrom (hay needle : Str) (start : Nat) : Option Nat :=
  (strFind (hay.drop start) needle).map (fun i => i + start)

/-- Python `needle in hay` (substring containment). -/
def containsSub (hay needle : Str) : Bool := (strFind hay needle).isSome

/-- Python `s.lower()` restricted to ASCII, which covers every keyword the
embedded code scans for. -/
def strLower (s : Str) : Str := s.map Char.toLower

/-- JSON values as produced by `json.loads`.  Numbers keep their source
lexeme: no embedded code path inspects numeric values. -/
inductive Json where
  | null
  | bool (b : Bool)
  | num (lexeme : Str)
  | str (s : Str)
  | arr (elems : List Json)
  | obj (members : List (Str × Json))

/-- The whitespace skipped between JSON tokens. -/
def isJsonWs (c : Char) : Bool := c = ' ' || c = '\t' || c = '\n' || c = '\r'

def skipWs (s : Str) : Str := s.dropWhile isJsonWs

/-- Single-character JSON escapes. -/
def jsonEscape (c : Char) : Option Char :=
  if c = '"' then some '"'
  else if c = '\\' then some '\\'
  else if c = '/' then some '/'
  else if c = 'b' then some '\x08'
  else if c = 'f' then some '\x0c'
  else if c = 'n' then some '\n'
  else if c = 'r' then some '\r'
  else if c = 't' then some '\t'
  else none

def hexVal (c : Char) : Option Nat :=
  if '0' ≤ c ∧ c ≤ '9' then some (c.toNat - 48)
  else if 'a' ≤ c ∧ c ≤ 'f' then some (c.toNat - 87)
  else if 'A' ≤ c ∧ c ≤ 'F' then some (c.toNat - 70)
  else none

/-- Body of a JSON string after the opening quote; returns the decoded
content and the input past the closing quote.  Lone `\uXXXX` escapes are
decoded directly (surrogate pairs do not occur in the modelled payloads). -/
def parseJString : Str → Except Str (Str × Str)
  | [] => .error ("Unterminated string".toList)
  | c :: cs =>
    if c = '"' then .ok ([], cs)
    else if c = '\\' then
      match cs with
      | [] => .error ("Unterminated string".toList)
      | e :: cs1 =>
        match jsonEscape e with
        | some d =>
          match parseJString cs1 with
          | .ok r => .ok (d :: r.1, r.2)
          | .error m => .error m
        | none =>
          if e = 'u' then
            match cs1 with
            | h1 :: h2 :: h3 :: h4 :: cs2 =>
              match hexVal h1, hexVal h2, hexVal h3, hexVal h4 with
              | some a, some b, some c3, some d =>
                match parseJString cs2 with
                | .ok r => .ok (Char.ofNat (((a * 16 + b) * 16 + c3) * 16 + d) :: r.1, r.2)
                | .error m => .error m
              | _, _, _, _ => .error ("Invalid unicode escape".toList)
            | _ => .error ("Invalid unicode escape".toList)
          else .error ("Invalid escape".toList)
    else
      match parseJString cs with
      | .ok r => .ok (c :: r.1, r.2)
      | .error m => .error m

/-- Maximal run of decimal digits. -/
def takeDigits (s : Str) : Str × Str := (s.takeWhile Char.isDigit, s.dropWhile Char.isDigit)

/-- A JSON number lexeme (sign, integer part without redundant leading zero,
optional fraction and exponent), returned together with the rest of the input. -/
def parseJNumber (s : Str) : Except Str (Str × Str) :=
  let signed := match s with
    | '-' :: t => (['-'], t)
    | _ => (([] : Str), s)
  match signed.2 with
  | [] => .error ("Expecting value".toList)
  | c :: rest =>
    if ¬ c.isDigit then .error ("Expecting value".toList)
    else
      let ip : Str × Str := if c = '0' then ([c], rest) else takeDigits signed.2
      let afterInt := ip.2
      let frac : Except Str (Str × Str) :=
        match afterInt with
        | '.' :: t =>
          let d := takeDigits t
          if d.1.isEmpty then .error ("Expecting digits after decimal point".toList)
          else .ok ('.' :: d.1, d.2)
        | _ => .ok ([], afterInt)
      match frac with
      | .error m => .error m
      | .ok fr =>
        let expo : Except Str (Str × Str) :=
          match fr.2 with
          | e :: t =>
            if e = 'e' ∨ e = 'E' then
              let signedE := match t with
                | '+' :: t2 => (['+'], t2)
                | '-' :: t2 => (['-'], t2)
                | _ => (([] : Str), t)
              let d := takeDigits signedE.2
              if d.1.isEmpty then .error ("Expecting digits in exponent".toList)
              else .ok (e :: signedE.1 ++ d.1, d.2)
            else .ok ([], fr.2)
          | [] => .ok ([], fr.2)
        match expo with
        | .error m => .error m
        | .ok ex => .ok (signed.1 ++ ip.1 ++ fr.1 ++ ex.1, ex.2)

mutual

/-- One JSON value; `fuel` strictly exceeds the number of characters still to
be consumed, so `jsonLoads` never exhausts it. -/
def parseJValue : Nat → Str → Except Str (Json × Str)
  | 0, _ => .error ("Expecting value".toList)
  | fuel + 1, s =>
    match skipWs s with
    | [] => .error ("Expecting value".toList)
    | c :: rest =>
      if c = '{' then
        match skipWs rest with
        | '}' :: r2 => .ok (Json.obj [], r2)
        | _ => parseJMembers fuel rest []
      else if c = '[' then
        match skipWs rest with
        | ']' :: r2 => .ok (Json.arr [], r2)
        | _ => parseJElems fuel rest []
      else if c = '"' then
        match parseJString rest with
        | .ok r => .ok (Json.str r.1, r.2)
        | .error m => .error m
      else if c = 't' then
        if ("rue".toList).isPrefixOf rest then .ok (Json.bool true, rest.drop 3)
        else .error ("Expecting value".toList)
      else if c = 'f' then
        if ("alse".toList).isPrefixOf rest then .ok (Json.bool false, rest.drop 4)
        else .error ("Expecting value".toList)
      else if c = 'n' then
        if ("ull".toList).isPrefixOf rest then .ok (Json.null, rest.drop 3)
        else .error ("Expecting value".toList)
      else if c = '-' ∨ c.isDigit then
        match parseJNumber (c :: rest) with
        | .ok r => .ok (Json.num r.1, r.2)
        | .error m => .error m
      else .error ("Expecting value".toList)

/-- Members of a JSON object after its opening brace. -/
def parseJMembers : Nat → Str → List (Str × Json) → Except Str (Json × Str)
  | 0, _, _ => .error ("Expecting property name".toList)
  | fuel + 1, s, acc =>
    match skipWs s with
    | '"' :: rest =>
      match parseJString rest with
      | .error m => .error m
      | .ok kr =>
        match skipWs kr.2 with
        | ':' :: r3 =>
          match parseJValue fuel r3 with
          | .error m => .error m
          | .ok vr =>
            match skipWs vr.2 with
            | ',' :: r5 => parseJMembers fuel r5 (acc ++ [(kr.1, vr.1)])
            | '}' :: r5 => .ok (Json.obj (acc ++ [(kr.1, vr.1)]), r5)
            | _ => .error ("Expecting comma or end of object".toList)
        | _ => .error ("Expecting colon".toList)
    | _ => .error ("Expecting property name".toList)

/-- Elements of a JSON array after its opening bracket. -/
def parseJElems : Nat → Str → List Json → Except Str (Json × Str)
  | 0, _, _ => .error ("Expecting value".toList)
  | fuel + 1, s, acc =>
    match parseJValue fuel s with
    | .error m => .error m
    | .ok vr =>
      match skipWs vr.2 with
      | ',' :: r2 => parseJElems fuel r2 (acc ++ [vr.1])
      | ']' :: r2 => .ok (Json.arr (acc ++ [vr.1]), r2)
      | _ => .error ("Expecting comma or end of array".toList)

end

/-- `json.loads`: one JSON document, with nothing but whitespace after it. -/
def jsonLoads (s : Str) : Except Str Json :=
  match parseJValue (s.length + 1) s with
  | .error m => .error m
  | .ok vr => if (skipWs vr.2).isEmpty then .ok vr.1 else .error ("Extra data".toList)

/-- `dict.get(key)` on a parsed JSON object (`none` both for a missing key and
for a non-object); a duplicated key keeps its last value, as in Python. -/
def jsonGet (j : Json) (key : Str) : Option Json :=
  match j with
  | Json.obj ms => (ms.reverse.find? (fun m => m.1 == key)).map (fun m => m.2)
  | _ => none

/-! ### `WorkerAgent._parse_task_result` (executor.py lines 372-390) -/

def RESULT_START : Str := "TASK_RESULT_START".toList

def RESULT_END : Str := "TASK_RESULT_END".toList

/-- Heuristic fallback classification of raw kernel output, taken when the
result markers are missing or out of order (executor.py lines 378-384). -/
def heuristicClassify (raw : Str) : Json :=
  let lower := strLower raw
  if containsSub lower ("error".toList) || containsSub lower ("exception".toList)
      || containsSub lower ("traceback".toList) then
    Json.obj [("success".toList, Json.bool false),
              ("error".toList, Json.str (("Execution error: ".toList) ++ raw.take 1000))]
  else if containsSub lower ("success".toList) || containsSub lower ("completed".toList)
      || containsSub lower ("loaded".toList) then
    Json.obj [("success".toList, Json.bool true),
              ("message".toList, Json.str ("Task appears successful based on output".toList)),
              ("data".toList, Json.obj [("raw_output".toList, Json.str (raw.take 500))])]
  else
    Json.obj [("success".toList, Json.bool false),
              ("error".toList,
               Json.str (("No result markers found. Output: ".toList) ++ raw.take 500))]

/-- `WorkerAgent._parse_task_result`.  The strict tier fires when both markers
are found and the first `END` occurrence lies strictly after the first
`START` occurrence; the substring between them is stripped and fed to
`json.loads`, and a decode failure produces a failure envelope whose error
text embeds the truncated substring (no `data` member). -/
def parse_task_result (raw : Str) : Json :=
  match strFind raw RESULT_START, strFind raw RESULT_END with
  | some s, some e =>
    if e ≤ s then heuristicClassify raw
    else
      let json_text := pyStrip (pySlice raw (s + RESULT_START.length) e)
      match jsonLoads json_text with
      | .ok v => v
      | .error msg =>
        Json.obj [("success".toList, Json.bool false),
                  ("error".toList,
                   Json.str (("Failed to parse result JSON: ".toList) ++ msg
                     ++ (". Raw: ".toList) ++ json_text.take 300))]
  | _, _ => heuristicClassify raw

/-! ### `_extract_code` (executor.py lines 348-370, schema_analyzer.py lines 445-485)

The fenced-block branches are textually identical in the two copies and are
shared here; only the schema analyzer has the trailing line-scan heuristic. -/

def FENCE : Str := "```".toList

def FENCE_PY : Str := "```python".toList

/-- First branch of `_extract_code`: interior of a closed ```python block;
`none` when the branch falls through (tag absent, or no closing fence). -/
def taggedFenceBlock (r : Str) : Option Str :=
  match strFind r FENCE_PY with
  | none => none
  | some i =>
    let s := i + FENCE_PY.length
    match strFindFrom r FENCE s with
    | some e => if s < e then some (pyStrip (pySlice r s e)) else none
    | none => none

/-- Second branch of `_extract_code`: interior of the first closed fenced
block, skipping a short (< 20 characters) language-tag line after the
opening fence. -/
def anyFenceBlock (r : Str) : Option Str :=
  match strFind r FENCE with
  | none => none
  | some i =>
    let s0 := i + 3
    let s := match strFindFrom r (['\n']) s0 with
      | some p => if s0 < p ∧ p - s0 < 20 then p + 1 else s0
      | none => s0
    match strFindFrom r FENCE s with
    | some e => if s < e then some (pyStrip (pySlice r s e)) else none
    | none => none

/-- `WorkerAgent._extract_code`: fenced-block extraction only; with no
usable fence the (stripped) response is returned whole. -/
def worker_extract (response : Str) : Str :=
  if response.isEmpty then [] else
  let r := pyStrip response
  match taggedFenceBlock r with
  | some code => code
  | none =>
    match anyFenceBlock r with
    | some code => code
    | none => r

def codeLinePrefixes : List Str :=
  [("import ".toList), ("from ".toList), ("def ".toList), ("class ".toList), ("#".toList),
   ("db_".toList), ("DB_".toList), ("config".toList), ("CONFIG".toList)]

def proseLinePrefixes : List Str :=
  [("Note:".toList), ("Warning:".toList), ("Error:".toList)]

/-- The per-line heuristic of the schema analyzer's `_extract_code`:
a stripped line "looks like code" when it starts like an import, a
definition, a comment or a config name, or contains `=` without starting
like a prose annotation line. -/
def lineLooksLikeCode (stripped : Str) : Bool :=
  codeLinePrefixes.any (fun p => p.isPrefixOf stripped)
    || (stripped.contains '=' && !(proseLinePrefixes.any (fun p => p.isPrefixOf stripped)))

/-- Python `s.split(sep)` for a single-character separator. -/
def splitOnChar (sep : Char) : Str → List Str
  | [] => [[]]
  | c :: cs =>
    match splitOnChar sep cs with
    | [] => [[]]
    | h :: t => if c = sep then [] :: h :: t else (c :: h) :: t

/-- The scan over lines: once a line looks like code, every following line is
kept (the `in_code` flag is sticky). -/
def scanCodeLines : List Str → Bool → List Str
  | [], _ => []
  | line :: rest, inCode =>
    let inCode1 := inCode || lineLooksLikeCode (pyStrip line)
    (if inCode1 then [line] else []) ++ scanCodeLines rest inCode1

/-- Trailing heuristic of the schema analyzer's `_extract_code`: capture from
the first code-looking line onward; with no such line the (stripped)
response is returned whole. -/
def heuristicCodeScan (r : Str) : Str :=
  let codeLines := scanCodeLines (splitOnChar '\n' r) false
  if codeLines.isEmpty then r else pyStrip (List.intercalate (['\n']) codeLines)

/-- `SchemaAnalyzerAgent._extract_code`: fenced-block extraction, then the
line-scan heuristic. -/
def analyzer_extract (response : Str) : Str :=
  if response.isEmpty then [] else
  let r := pyStrip response
  match taggedFenceBlock r with
  | some code => code
  | none =>
    match anyFenceBlock r with
    | some code => code
    | none => heuristicCodeScan r

/-! ### Catalog data model (the table dictionaries of the schema payload)

Fields unused by every embedded code path (`default`, `column_samples`,
foreign-key `options`) are omitted. -/

structure Column where
  name : String
  colType : String
  nullable : Bool
deriving DecidableEq

structure ForeignKey where
  constrained_columns : List String
  referred_table : Option String
  referred_columns : List String
deriving DecidableEq

structure Table where
  table_name : String
  row_count : Option Int
  columns : List Column
  primary_key : List String
  foreign_keys : List ForeignKey
deriving DecidableEq

/-! ### `SchemaAnalyzerAgent._build_fingerprint` (schema_analyzer.py lines 516-537) -/

/-- One foreign key as captured by the fingerprint:
`(referred_table, constrained_columns, referred_columns)` — the `options`
entry of the catalog is not captured. -/
structure FkSigEntry where
  referred_table : Option String
  constrained_columns : List String
  referred_columns : List String
deriving DecidableEq

abbrev FkSig := List FkSigEntry

def fkSignature (t : Table) : FkSig :=
  t.foreign_keys.map (fun fk =>
    { referred_table := fk.referred_table,
      constrained_columns := fk.constrained_columns,
      referred_columns := fk.referred_columns })

/-- The per-table tuple of the fingerprint: name, row count, column-name
sequence, primary-key sequence, foreign-key signature sequence. -/
structure FpEntry where
  name : String
  count : Option Int
  colNames : List String
  pk : List String
  fks : FkSig
deriving DecidableEq

def fpEntry (t : Table) : FpEntry :=
  { name := t.table_name, count := t.row_count,
    colNames := t.columns.map (fun c => c.name),
    pk := t.primary_key, fks := fkSignature t }

/-- A kernel-computable decision procedure for the name order (core's
`String.ltb` is defined by well-founded recursion, which kernel reduction
does not unfold, so witnesses could not be checked by `decide` with the
default instance). -/
instance tableNameLeDec : DecidableRel (fun a b : Table => a.table_name ≤ b.table_name) :=
  fun a b => decidable_of_iff (a.table_name.toList ≤ b.table_name.toList)
    String.le_iff_toList_le.symm

/-- Python's `sorted(metadata, key=...)` is a stable sort; `List.insertionSort`
with the reflexive key order is stable in exactly the same way. -/
def sortByName (metadata : List Table) : List Table :=
  List.insertionSort (fun a b => a.table_name ≤ b.table_name) metadata

def build_fingerprint (metadata : List Table) : List FpEntry :=
  (sortByName metadata).map fpEntry

abbrev Fingerprint := List FpEntry

/-! ### Stability counter (schema_analyzer.py lines 229-236) -/

/-- One round of the convergence check: the new previous fingerprint and the
new `stable_rounds` (incremented on agreement with the previous round,
reset to 1 otherwise — in particular on the first round, where there is
no previous fingerprint). -/
def stabilityUpdate (prev : Option Fingerprint) (rounds : Nat) (fp : Fingerprint) :
    Option Fingerprint × Nat :=
  (some fp, if prev = some fp then rounds + 1 else 1)

/-- The counter state after a sequence of per-round fingerprints, starting
from `prev_fingerprint = None`, `stable_rounds = 0`. -/
def runStability (fps : List Fingerprint) : Option Fingerprint × Nat :=
  fps.foldl (fun s fp => stabilityUpdate s.1 s.2 fp) (none, 0)

/-- `satisfied = stable_rounds >= self.stable_rounds_required`. -/
def stabilitySatisfied (required : Nat) (fps : List Fingerprint) : Bool :=
  decide (required ≤ (runStability fps).2)

/-! ### Dependency orderer (executor.py lines 432-456, in `_build_mega_tasks`) -/

/-- The dependency set of one table: referred tables of its foreign keys,
with `None`, empty and self references dropped.  (The Python code collects
these into a set; only membership is ever observed, so the list keeps
duplicates without consequence.) -/
def tableDeps (t : Table) : List String :=
  (t.foreign_keys.filterMap (fun fk => fk.referred_table)).filter
    (fun ref => !(ref == "") && !(ref == t.table_name))

/-- Keys of a Python dict built by repeated assignment: first-occurrence
order, duplicates collapsed. -/
def pyDictKeys : List String → List String → List String
  | acc, [] => acc
  | acc, x :: xs => pyDictKeys (if x ∈ acc then acc else acc ++ [x]) xs

def depKeys (tables : List Table) : List String :=
  pyDictKeys [] (tables.map (fun t => t.table_name))

/-- `table_deps[name]`: repeated dict assignment keeps the last table with
that name. -/
def depsOf (tables : List Table) (name : String) : List String :=
  match (tables.filter (fun t => t.table_name == name)).getLast? with
  | some t => tableDeps t
  | none => []

/-- `not (table_deps[t] & remaining)`: no remaining unit is a dependency. -/
def emitable (tables : List Table) (remaining : List String) (t : String) : Bool :=
  (depsOf tables t).all (fun d => !(remaining.contains d))

/-- The `while remaining:` loop: emit the first unit (in the set's current
iteration order) with no remaining dependency; when none exists (a cycle)
emit all remaining units in that same iteration order and stop.  The
`remaining` list carries the set's current iteration order; `fuel` equals
`remaining.length` at every reachable call. -/
def topoLoop (tables : List Table) : Nat → List String → List String → List String
  | 0, acc, remaining => acc ++ remaining
  | fuel + 1, acc, remaining =>
    if remaining.isEmpty then acc
    else
      match remaining.find? (emitable tables remaining) with
      | some t => topoLoop tables fuel (acc ++ [t]) (remaining.erase t)
      | none => acc ++ remaining

/-- `ordered_tables` as computed in `_build_mega_tasks`.  The Python
`remaining` is a `set`, and the order in which `for t in list(remaining)`
and the final `ordered_tables.extend(remaining)` enumerate it is a
hash-table artifact — NOT insertion order — so the embedding threads it
explicitly: `enum` is an arbitrary duplicate-free listing of the dict's
keys.  Deleting an element from a CPython set leaves the others in place
(no rehash on discard) and nothing is ever inserted, so a single fixed
enumeration drives the whole loop. -/
def orderedTables (tables : List Table) (enum : List String) : List String :=
  topoLoop tables enum.length [] enum

/-! ### `WorkerAgent.execute_task` (executor.py lines 131-207)

The LLM and the kernel are external; each loop iteration is driven by one
`AttemptResult` describing what they produced for that attempt. -/

/-- The fields of the parsed result envelope that the retry loop reads:
the truthiness of `result_data.get("success")` and the `error`/`message`
entries (absent or string-valued). -/
structure Envelope where
  success : Bool
  error : Option String
  message : Option String
deriving DecidableEq

/-- What one attempt of the retry loop ran into. -/
inductive AttemptResult where
  /-- the generated artifact was empty or shorter than 50 characters -/
  | insufficientCode
  /-- `kernel.execute` (or the subsequent parse access) raised -/
  | execError (err : String)
  /-- `_parse_task_result` returned an envelope -/
  | parsed (env : Envelope)
deriving DecidableEq

/-- Python `a or b` on an optional string and a default (both `None` and the
empty string are falsy). -/
def pyOrStr (o : Option String) (d : String) : String :=
  match o with
  | some s => if s = "" then d else s
  | none => d

/-- `result_data.get("error") or result_data.get("message") or "Task reported failure"`. -/
def envFailureError (env : Envelope) : String :=
  pyOrStr env.error (pyOrStr env.message ("Task reported failure"))

structure TaskOutcome where
  success : Bool
  attempts : Nat
  result : Option Envelope
  last_error : Option String
deriving DecidableEq

/-- The retry loop; `n` is the attempt counter so far, `rd` the last parsed
envelope (`none` models the initial `{}`). -/
def executeTaskGo : List AttemptResult → Nat → Option String → Option Envelope → TaskOutcome
  | [], n, lastErr, rd => { success := false, attempts := n, result := rd, last_error := lastErr }
  | st :: rest, n, lastErr, rd =>
    match st with
    | .insufficientCode =>
        executeTaskGo rest (n + 1) (some ("LLM returned empty or insufficient code")) rd
    | .execError e => executeTaskGo rest (n + 1) (some e) rd
    | .parsed env =>
        if env.success then
          { success := true, attempts := n + 1, result := some env, last_error := none }
        else executeTaskGo rest (n + 1) (some (envFailureError env)) (some env)

/-- `WorkerAgent.execute_task` driven by one `AttemptResult` per attempt;
the list has length `max_attempts`. -/
def execute_task (steps : List AttemptResult) : TaskOutcome :=
  executeTaskGo steps 0 none none

/-- An attempt that does not end the loop successfully. -/
def attemptFails : AttemptResult → Prop
  | .insufficientCode => True
  | .execError _ => True
  | .parsed env => env.success = false

/-- The `last_error` value recorded for a failing attempt. -/
def attemptErrorText : AttemptResult → String
  | .insufficientCode => "LLM returned empty or insufficient code"
  | .execError e => e
  | .parsed env => envFailureError env

/-! ### `MigrationExecutor.execute_migration` (executor.py lines 608-703) -/

structure TaskSpec where
  id : String
  steps : List AttemptResult
deriving DecidableEq

structure LogEntry where
  task_id : String
  status : String
  attempts : Nat
deriving DecidableEq

structure ExecutionReport where
  success : Bool
  total_tasks : Nat
  completed_tasks : Nat
  failed_tasks : Nat
  completed_task_ids : List String
  failed_task_ids : List String
  execution_log : List LogEntry
deriving DecidableEq

/-- The per-unit loop: strictly sequential; a failed unit is recorded and the
loop continues with the next one. -/
def migrationLoop : List TaskSpec → List String → List String → List LogEntry →
    List String × List String × List LogEntry
  | [], completed, failed, log => (completed, failed, log)
  | task :: rest, completed, failed, log =>
    let r := execute_task task.steps
    let log1 := log ++ [{ task_id := task.id,
                          status := if r.success then "success" else "failed",
                          attempts := r.attempts }]
    if r.success then migrationLoop rest (completed ++ [task.id]) failed log1
    else migrationLoop rest completed (failed ++ [task.id]) log1

/-- The report assembled after the loop. -/
def execute_migration (tasks : List TaskSpec) : ExecutionReport :=
  let r := migrationLoop tasks [] [] []
  { success := r.2.1.length == 0,
    total_tasks := tasks.length,
    completed_tasks := r.1.length,
    failed_tasks := r.2.1.length,
    completed_task_ids := r.1,
    failed_task_ids := r.2.1,
    execution_log := r.2.2 }

/-! ### Conversation windows (executor.py lines 323-343, schema_analyzer.py
lines 404-425, planner.py lines 38-80)

Prompt text is irrelevant to the windowing claim and is carried as opaque
parameters; roles and message counts are faithful. -/

structure ChatMsg where
  role : String
  content : String
deriving DecidableEq

/-- Python `conversation[-k:]`. -/
def pyTakeLast (k : Nat) (l : List ChatMsg) : List ChatMsg := l.drop (l.length - k)

/-- Python truthiness of an optional string. -/
def pyTruthy (o : Option String) : Bool :=
  match o with
  | some s => !(s == "")
  | none => false

/-- Messages built by `WorkerAgent._ask_llm_for_code`: system prompt, then on
the first attempt a single user message, otherwise the last 4 conversation
turns plus one corrective user message when there is a last error. -/
def workerMessages (systemPrompt firstUser errFollowup : String) (attempt : Nat)
    (last_error : Option String) (conversation : List ChatMsg) : List ChatMsg :=
  let base := [{ role := "system", content := systemPrompt : ChatMsg }]
  if attempt = 1 then base ++ [{ role := "user", content := firstUser }]
  else
    let withConv := base ++ pyTakeLast 4 conversation
    if pyTruthy last_error then withConv ++ [{ role := "user", content := errFollowup }]
    else withConv

/-- Messages built by `SchemaAnalyzerAgent._ask_llm_for_code`: as for the
worker but with the last 8 conversation turns and an unconditional final
user message (corrective or regenerate). -/
def analyzerMessages (systemPrompt firstUser errText regenText : String) (iteration : Nat)
    (last_error : Option String) (conversation : List ChatMsg) : List ChatMsg :=
  let base := [{ role := "system", content := systemPrompt : ChatMsg }]
  if iteration = 1 then base ++ [{ role := "user", content := firstUser }]
  else
    base ++ pyTakeLast 8 conversation
      ++ [{ role := "user",
            content := if pyTruthy last_error then errText else regenText }]

/-- Messages built by `PlannerAgent.send_instruction`: system prompt, the
entire accumulated history, then the new instruction. -/
def plannerMessages (systemPrompt : String) (history : List ChatMsg)
    (instruction : String) : List ChatMsg :=
  [{ role := "system", content := systemPrompt : ChatMsg }] ++ history
    ++ [{ role := "user", content := instruction }]

/-- History update at the end of `send_instruction`: the instruction and the
response are appended; nothing is ever dropped. -/
def plannerStep (history : List ChatMsg) (instruction response : String) : List ChatMsg :=
  history ++ [{ role := "user", content := instruction },
              { role := "assistant", content := response }]

/-- The planner history after `n` instruction/response exchanges. -/
def plannerHistoryAfter : Nat → List ChatMsg
  | 0 => []
  | n + 1 => plannerStep (plannerHistoryAfter n) ("i") ("r")

/-! ### `SchemaAnalyzerAgent.analyze_schema` (schema_analyzer.py lines 151-288)
and the session lifecycle of `MigrationExecutor.execute_migration`
(executor.py lines 621-672) -/

inductive SessEvent where
  | started
  | shutdown
deriving DecidableEq

/-- What the environment (LLM + kernel) produced in one discovery iteration. -/
inductive IterStep where
  /-- an exception raised outside the guarded execute/parse block (for
  example by the LLM client or the log sink): escapes to the outer handler -/
  | escape (err : String)
  /-- generated code empty or shorter than 50 characters: loop continues -/
  | insufficientCode
  /-- `session.execute` or `_parse_kernel_output` raised: caught in the
  iteration, loop continues -/
  | kernelError (err : String)
  /-- a parsed payload with its tables and relationships -/
  | payload (tables : List Table) (relationships : List String)

structure LoopState where
  metadata : List Table
  relationships : List String
  prevFp : Option Fingerprint
  stableRounds : Nat
  satisfied : Bool
  iteration : Nat

def initLoopState : LoopState :=
  { metadata := [], relationships := [], prevFp := none, stableRounds := 0,
    satisfied := false, iteration := 0 }

/-- The `while iteration < max_iterations` loop; the boolean is true when an
exception escaped the per-iteration handling. -/
def analyzeLoop (required : Nat) (env : Nat → IterStep) : Nat → LoopState → LoopState × Bool
  | 0, s => (s, false)
  | fuel + 1, s =>
    let it := s.iteration + 1
    match env it with
    | .escape _ => ({ s with iteration := it }, true)
    | .insufficientCode => analyzeLoop required env fuel { s with iteration := it }
    | .kernelError _ => analyzeLoop required env fuel { s with iteration := it }
    | .payload tables rels =>
      let s1 := { s with iteration := it, metadata := tables, relationships := rels }
      if tables.isEmpty then analyzeLoop required env fuel s1
      else
        let fp := build_fingerprint tables
        let rounds := if s1.prevFp = some fp then s1.stableRounds + 1 else 1
        let sat := decide (required ≤ rounds)
        let s2 := { s1 with prevFp := some fp, stableRounds := rounds, satisfied := sat }
        if sat then (s2, false) else analyzeLoop required env fuel s2

structure AnalyzeResult where
  success : Bool
  analysis_file : Option String
  schema_file : Option String
  iterations : Nat
  satisfied : Bool
deriving DecidableEq

/-- `analyze_schema`: session start, the discovery loop inside
`try/except/finally`, then report-file writing guarded by `if metadata`.
The `except Exception` handler catches everything (so the function always
returns normally), clears `metadata`/`relationships` and forces
`satisfied = False`; the `finally` shuts the session down exactly when it
was started.  The returned event list records the session lifecycle; the
file names stand in for the timestamped report paths. -/
def analyze_schema (required maxIter : Nat) (startOk : Bool) (env : Nat → IterStep) :
    AnalyzeResult × List SessEvent :=
  if startOk then
    let r := analyzeLoop required env maxIter initLoopState
    let md := if r.2 then [] else r.1.metadata
    let sat := if r.2 then false else r.1.satisfied
    ({ success := !md.isEmpty,
       analysis_file := if md.isEmpty then none else some ("analysis.md"),
       schema_file := if md.isEmpty then none else some ("catalog.json"),
       iterations := r.1.iteration,
       satisfied := sat }, [SessEvent.started, SessEvent.shutdown])
  else
    ({ success := false, analysis_file := none, schema_file := none,
       iterations := 0, satisfied := false }, [])

/-- Session lifecycle of `execute_migration`: `start_kernel` inside `try`,
`shutdown_kernel` in `finally` (run on the exceptional path as well; when
`start` itself raised, the kernel object already exists so shutdown is
still invoked).  The boolean result records whether the call propagated an
exception. -/
def executeMigrationEvents (startOk bodyEscapes : Bool) : List SessEvent × Bool :=
  if startOk then ([SessEvent.started, SessEvent.shutdown], bodyEscapes)
  else ([SessEvent.shutdown], true)

/-! ### Specification-side vocabulary -/

/-- `needle` occurs in `hay` at position `i` and at no earlier position —
"the (first) position of the marker", as the spec reads `str.find`. -/
def FirstOccurrence (hay needle : Str) (i : Nat) : Prop :=
  needle <+: hay.drop i ∧ ∀ j, j < i → ¬ needle <+: hay.drop j

/-- `needle` does not occur anywhere in `hay`. -/
def NoOccurrence (hay needle : Str) : Prop := ∀ i, ¬ needle <+: hay.drop i

/-- Case-insensitive containment of a keyword, as the heuristic fallback of
the envelope parser is specified. -/
def ContainsCI (raw kw : Str) : Prop := ∃ i, kw <+: (strLower raw).drop i

/-- `l'` is `l` with a single occurrence of `t` replaced by `t'` — the shape
of "one table changed" used to state fingerprint sensitivity. -/
inductive ExceptAt (t t' : Table) : List Table → List Table → Prop
  | here (l : List Table) : ExceptAt t t' (t :: l) (t' :: l)
  | there (a : Table) {l l' : List Table} (h : ExceptAt t t' l l') :
      ExceptAt t t' (a :: l) (a :: l')

/-- `y` is a declared dependency of unit `x`, both being units of the input. -/
def DepEdge (tables : List Table) (x y : String) : Prop :=
  y ∈ depsOf tables x ∧ x ∈ depKeys tables ∧ y ∈ depKeys tables

/-- The dependency graph restricted to the input units has no directed cycle. -/
def AcyclicDeps (tables : List Table) : Prop :=
  ∀ t, ¬ Relation.TransGen (DepEdge tables) t t

/-! ### Concrete inputs used by witnesses and counterexamples -/

/-- A foreign key whose referred table is `n`. -/
def fkTo (n : String) : ForeignKey :=
  { constrained_columns := ["x"], referred_table := some n, referred_columns := ["id"] }

def mkTable (name : String) (fks : List ForeignKey) : Table :=
  { table_name := name, row_count := some 0, columns := [], primary_key := [],
    foreign_keys := fks }

/-- The spec's 2-cycle `A → B, B → A` plus an independent `C`. -/
def cycTables : List Table := [mkTable ("A") [fkTo ("B")], mkTable ("B") [fkTo ("A")], mkTable ("C") []]

/-- The spec's chain: `B` depends on `A`, `C` depends on `B`. -/
def chainTables : List Table := [mkTable ("C") [fkTo ("B")], mkTable ("A") [], mkTable ("B") [fkTo ("A")]]

/-- Kernel output honouring the envelope protocol with a well-formed payload. -/
def c4goodRaw : Str := ("TASK_RESULT_START \x7b\"success\": true\x7d TASK_RESULT_END").toList

/-- Kernel output with both markers but a malformed payload between them. -/
def c4badRaw : Str := ("TASK_RESULT_START not json TASK_RESULT_END").toList

/-- Two tables sharing a name, with different captured row counts. -/
def dupNameT1 : Table :=
  { table_name := "t", row_count := some 1, columns := [], primary_key := [], foreign_keys := [] }

def dupNameT2 : Table :=
  { table_name := "t", row_count := some 2, columns := [], primary_key := [], foreign_keys := [] }

/-- Two distinct columns with the same name (the fingerprint captures only
the name). -/
def colIntA : Column := { name := "a", colType := "integer", nullable := true }

def colTextA : Column := { name := "a", colType := "text", nullable := true }

def twoColTable (cols : List Column) : Table :=
  { table_name := "t", row_count := some 0, columns := cols, primary_key := [],
    foreign_keys := [] }

/-- Two work units for the partial-completion scenario: one succeeding on its
first attempt, one failing all three. -/
def demoTasks : List TaskSpec :=
  [{ id := "u1", steps := [AttemptResult.parsed { success := true, error := none, message := none }] },
   { id := "u2", steps := [AttemptResult.execError ("boom1"), AttemptResult.execError ("boom2"),
                           AttemptResult.execError ("boom3")] }]

/-- A discovery environment whose first iteration discovers a table and whose
second iteration raises outside the guarded block. -/
def c10Env : Nat → IterStep := fun n =>
  match n with
  | 1 => IterStep.payload [dupNameT1] []
  | 2 => IterStep.escape ("llm client failure")
  | _ => IterStep.insufficientCode

/-! ## Theorems

First the bridge between `strFind` and the spec-side occurrence predicates. -/

theorem strFindAux_some {needle : Str} :
    ∀ {s : Str} {k m : Nat}, strFindAux needle s k = some m →
      k ≤ m ∧ needle <+: s.drop (m - k) ∧ ∀ j, j < m - k → ¬ needle <+: s.drop j := by
  intro s
  induction s with
  | nil =>
    intro k m h
    simp only [strFindAux] at h
    by_cases hne : needle.isEmpty
    · simp only [hne, if_pos] at h
      obtain rfl : k = m := by exact Option.some.inj h
      refine ⟨le_refl _, ?_, ?_⟩
      · simp [List.isEmpty_iff.mp hne]
      · intro j hj; omega
    · simp [hne] at h
  | cons c cs ih =>
    intro k m h
    simp only [strFindAux] at h
    by_cases hp : needle.isPrefixOf (c :: cs)
    · simp only [hp, if_pos] at h
      obtain rfl : k = m := by exact Option.some.inj h
      refine ⟨le_refl _, ?_, ?_⟩
      · simpa using List.isPrefixOf_iff_prefix.mp hp
      · intro j hj; omega
    · simp only [hp, if_neg, Bool.false_eq_true, not_false_iff] at h
      obtain ⟨hk, hpre, hmin⟩ := ih h
      refine ⟨by omega, ?_, ?_⟩
      · have : m - k = (m - (k + 1)) + 1 := by omega
        rw [this]
        simpa using hpre
      · intro j hj
        cases j with
        | zero =>
          simpa using (fun hc => hp (List.isPrefixOf_iff_prefix.mpr (by simpa using hc)))
        | succ j' =>
          have : j' < m - (k + 1) := by omega
          simpa using hmin j' this

theorem strFindAux_none {needle : Str} :
    ∀ {s : Str} {k : Nat}, strFindAux needle s k = none →
      ∀ i, ¬ needle <+: s.drop i := by
  intro s
  induction s with
  | nil =>
    intro k h i hpre
    simp only [strFindAux] at h
    have hne : ¬ needle.isEmpty := by
      intro he; simp [he] at h
    have hnil : needle = [] := List.prefix_nil.mp (by simpa using hpre)
    simp [hnil] at hne
  | cons c cs ih =>
    intro k h i hpre
    simp only [strFindAux] at h
    by_cases hp : needle.isPrefixOf (c :: cs)
    · simp [hp] at h
    · simp only [hp, if_neg, Bool.false_eq_true, not_false_iff] at h
      cases i with
      | zero => exact hp (List.isPrefixOf_iff_prefix.mpr (by simpa using hpre))
      | succ i' => exact ih h i' (by simpa using hpre)

theorem strFindAux_of_first {needle : Str} :
    ∀ {s : Str} {i : Nat} (k : Nat), needle <+: s.drop i →
      (∀ j, j < i → ¬ needle <+: s.drop j) →
      strFindAux needle s k = some (k + i) := by
  intro s
  induction s with
  | nil =>
    intro i k hpre hmin
    have hne : needle = [] := List.prefix_nil.mp (by simpa using hpre)
    have hi : i = 0 := by
      by_contra hne0
      exact hmin 0 (by omega) (by simp [hne])
    subst hi hne
    simp [strFindAux]
  | cons c cs ih =>
    intro i k hpre hmin
    cases i with
    | zero =>
      have hp : needle.isPrefixOf (c :: cs) :=
        List.isPrefixOf_iff_prefix.mpr (by simpa using hpre)
      simp [strFindAux, hp]
    | succ i' =>
      have hp : ¬ needle.isPrefixOf (c :: cs) := by
        intro hc
        exact hmin 0 (by omega) (by simpa using List.isPrefixOf_iff_prefix.mp hc)
      have := ih (k + 1) (by simpa using hpre)
        (fun j hj => by simpa using hmin (j + 1) (by omega))
      simp only [strFindAux, hp, if_neg, Bool.false_eq_true, not_false_iff]
      rw [this]
      congr 1
      omega

theorem strFind_eq_some_iff {hay needle : Str} {i : Nat} :
    strFind hay needle = some i ↔ FirstOccurrence hay needle i := by
  constructor
  · intro h
    obtain ⟨-, hpre, hmin⟩ := strFindAux_some (s := hay) (k := 0) h
    exact ⟨by simpa using hpre, fun j hj => by simpa using hmin j (by omega)⟩
  · intro ⟨hpre, hmin⟩
    simpa using strFindAux_of_first (s := hay) 0 hpre hmin

theorem strFind_eq_none_iff {hay needle : Str} :
    strFind hay needle = none ↔ NoOccurrence hay needle := by
  constructor
  · intro h i
    exact strFindAux_none (s := hay) (k := 0) h i
  · intro h
    cases hf : strFind hay needle with
    | none => rfl
    | some m =>
      obtain ⟨-, hpre, -⟩ := strFindAux_some (s := hay) (k := 0) hf
      exact absurd (by simpa using hpre) (h m)

theorem containsSub_lower_iff {raw kw : Str} :
    containsSub (strLower raw) kw = true ↔ ContainsCI raw kw := by
  constructor
  · intro h
    rw [containsSub, Option.isSome_iff_exists] at h
    obtain ⟨m, hm⟩ := h
    obtain ⟨-, hpre, -⟩ := strFindAux_some (s := strLower raw) (k := 0) hm
    exact ⟨m, by simpa using hpre⟩
  · intro ⟨m, hm⟩
    rw [containsSub, Option.isSome_iff_exists]
    cases hf : strFind (strLower raw) kw with
    | none => exact absurd hm (strFind_eq_none_iff.mp hf m)
    | some j => exact ⟨j, rfl⟩

theorem containsSub_lower_false {raw kw : Str} (h : ¬ ContainsCI raw kw) :
    containsSub (strLower raw) kw = false := by
  cases hb : containsSub (strLower raw) kw with
  | false => rfl
  | true => exact absurd (containsSub_lower_iff.mp hb) h

/-- **C4** (amended).  `_parse_task_result` never raises and follows the
two-tier strategy: when both markers occur with the first `START`
occurrence strictly before the first `END` occurrence, the substring
between them is stripped and parsed as JSON and the parsed value returned;
on JSON decode failure the result is a failure envelope whose `error`
string embeds the decode message and the truncated substring — it carries
no `data` member.  When a marker is missing or they are out of order, the
case-insensitive keyword scan classifies the raw output: an
error/exception/traceback keyword gives a failure with a truncated
excerpt, otherwise a success/completed/loaded keyword gives a soft
success, otherwise a failure reporting that no result markers were found. -/
theorem c4_result_envelope (raw : Str) :
    (∀ s e, FirstOccurrence raw RESULT_START s → FirstOccurrence raw RESULT_END e → s < e →
      (∀ v, jsonLoads (pyStrip (pySlice raw (s + RESULT_START.length) e)) = Except.ok v →
          parse_task_result raw = v)
        ∧ ∀ msg, jsonLoads (pyStrip (pySlice raw (s + RESULT_START.length) e)) =
              Except.error msg →
          parse_task_result raw =
            Json.obj [(("success").toList, Json.bool false),
                      (("error").toList,
                       Json.str ((("Failed to parse result JSON: ").toList) ++ msg
                         ++ ((". Raw: ").toList)
                         ++ (pyStrip (pySlice raw (s + RESULT_START.length) e)).take 300))])
    ∧ ((NoOccurrence raw RESULT_START ∨ NoOccurrence raw RESULT_END ∨
          ∃ s e, FirstOccurrence raw RESULT_START s ∧ FirstOccurrence raw RESULT_END e ∧ e ≤ s) →
        parse_task_result raw = heuristicClassify raw)
    ∧ ((ContainsCI raw (("error").toList) ∨ ContainsCI raw (("exception").toList) ∨
          ContainsCI raw (("traceback").toList)) →
        heuristicClassify raw =
          Json.obj [(("success").toList, Json.bool false),
                    (("error").toList,
                     Json.str ((("Execution error: ").toList) ++ raw.take 1000))])
    ∧ (¬ (ContainsCI raw (("error").toList) ∨ ContainsCI raw (("exception").toList) ∨
            ContainsCI raw (("traceback").toList)) →
        (ContainsCI raw (("success").toList) ∨ ContainsCI raw (("completed").toList) ∨
            ContainsCI raw (("loaded").toList)) →
        heuristicClassify raw =
          Json.obj [(("success").toList, Json.bool true),
                    (("message").toList,
                     Json.str (("Task appears successful based on output").toList)),
                    (("data").toList,
                     Json.obj [(("raw_output").toList, Json.str (raw.take 500))])])
    ∧ (¬ (ContainsCI raw (("error").toList) ∨ ContainsCI raw (("exception").toList) ∨
            ContainsCI raw (("traceback").toList)) →
        ¬ (ContainsCI raw (("success").toList) ∨ ContainsCI raw (("completed").toList) ∨
            ContainsCI raw (("loaded").toList)) →
        heuristicClassify raw =
          Json.obj [(("success").toList, Json.bool false),
                    (("error").toList,
                     Json.str ((("No result markers found. Output: ").toList)
                       ++ raw.take 500))]) := by
  refine ⟨?_, ?_, ?_, ?_, ?_⟩
  · intro s e hs he hlt
    have hs1 : strFind raw RESULT_START = some s := strFind_eq_some_iff.mpr hs
    have he1 : strFind raw RESULT_END = some e := strFind_eq_some_iff.mpr he
    constructor
    · intro v hv
      simp only [parse_task_result, hs1, he1, if_neg (not_le.mpr hlt), hv]
    · intro msg hmsg
      simp only [parse_task_result, hs1, he1, if_neg (not_le.mpr hlt), hmsg]
  · intro h
    rcases h with h | h | ⟨s, e, hs, he, hle⟩
    · have h1 : strFind raw RESULT_START = none := strFind_eq_none_iff.mpr h
      cases hE : strFind raw RESULT_END <;> simp [parse_task_result, h1, hE]
    · have h1 : strFind raw RESULT_END = none := strFind_eq_none_iff.mpr h
      cases hS : strFind raw RESULT_START <;> simp [parse_task_result, h1, hS]
    · have hs1 : strFind raw RESULT_START = some s := strFind_eq_some_iff.mpr hs
      have he1 : strFind raw RESULT_END = some e := strFind_eq_some_iff.mpr he
      simp [parse_task_result, hs1, he1, hle]
  · intro h
    simp only [heuristicClassify]
    rcases h with h | h | h
    · rw [containsSub_lower_iff.mpr h]; simp
    · rw [containsSub_lower_iff.mpr h]; simp
    · rw [containsSub_lower_iff.mpr h]; simp
  · intro hneg hpos
    have h1 : containsSub (strLower raw) (("error").toList) = false :=
      containsSub_lower_false (fun hc => hneg (Or.inl hc))
    have h2 : containsSub (strLower raw) (("exception").toList) = false :=
      containsSub_lower_false (fun hc => hneg (Or.inr (Or.inl hc)))
    have h3 : containsSub (strLower raw) (("traceback").toList) = false :=
      containsSub_lower_false (fun hc => hneg (Or.inr (Or.inr hc)))
    simp only [heuristicClassify]
    rw [h1, h2, h3]
    rcases hpos with h | h | h
    · rw [containsSub_lower_iff.mpr h]; simp
    · rw [containsSub_lower_iff.mpr h]; simp
    · rw [containsSub_lower_iff.mpr h]; simp
  · intro hneg hneg2
    have h1 : containsSub (strLower raw) (("error").toList) = false :=
      containsSub_lower_false (fun hc => hneg (Or.inl hc))
    have h2 : containsSub (strLower raw) (("exception").toList) = false :=
      containsSub_lower_false (fun hc => hneg (Or.inr (Or.inl hc)))
    have h3 : containsSub (strLower raw) (("traceback").toList) = false :=
      containsSub_lower_false (fun hc => hneg (Or.inr (Or.inr hc)))
    have h4 : containsSub (strLower raw) (("success").toList) = false :=
      containsSub_lower_false (fun hc => hneg2 (Or.inl hc))
    have h5 : containsSub (strLower raw) (("completed").toList) = false :=
      containsSub_lower_false (fun hc => hneg2 (Or.inr (Or.inl hc)))
    have h6 : containsSub (strLower raw) (("loaded").toList) = false :=
      containsSub_lower_false (fun hc => hneg2 (Or.inr (Or.inr hc)))
    simp only [heuristicClassify]
    rw [h1, h2, h3, h4, h5, h6]
    simp

/-- **C4 counterexample.**  On kernel output whose markers delimit malformed
JSON, the claimed result shape `{success: false, error: ..., data: {raw: ...}}`
is wrong: the returned envelope has no `data` member at all (the truncated
substring is embedded in the `error` string instead), even though the
decode-failure branch was taken (`success` is `false`). -/
theorem c4_counterexample :
    jsonGet (parse_task_result c4badRaw) (("data").toList) = none
      ∧ jsonGet (parse_task_result c4badRaw) (("success").toList) = some (Json.bool false) := by
  exact ⟨rfl, rfl⟩

/-- **C4 witness**: a well-formed sentinel-delimited payload is parsed and
returned as-is. -/
theorem c4_result_envelope_witness :
    parse_task_result c4goodRaw = Json.obj [(("success").toList, Json.bool true)] := by
  have hs : FirstOccurrence c4goodRaw RESULT_START 0 := strFind_eq_some_iff.mp (by decide)
  have he : FirstOccurrence c4goodRaw RESULT_END 36 := strFind_eq_some_iff.mp (by decide)
  exact ((c4_result_envelope c4goodRaw).1 0 36 hs he (by omega)).1 _ (by rfl)

/-- **C7** (amended).  Both `_extract_code` functions are pure and agree on
the fenced-block tiers (a complete tagged block, else any complete fenced
block with a short language-tag line skipped); but only the schema
analyzer has the trailing line-scan heuristic — on fence-less input the
worker returns the stripped response whole while the analyzer captures
from the first code-looking line.  Both return the interior of a complete
generic fenced block and map empty input to empty output; tier (d)
returns the *stripped* input, not the input unchanged. -/
theorem c7_code_extractor (response : Str) :
    (analyzer_extract response = worker_extract response
        ∨ (worker_extract response = pyStrip response
            ∧ analyzer_extract response = heuristicCodeScan (pyStrip response)))
      ∧ worker_extract (("```lang\ncode\n```").toList) = ("code").toList
      ∧ analyzer_extract (("```lang\ncode\n```").toList) = ("code").toList
      ∧ worker_extract [] = [] ∧ analyzer_extract [] = [] := by
  refine ⟨?_, by decide, by decide, rfl, rfl⟩
  by_cases h0 : response.isEmpty
  · left
    simp [worker_extract, analyzer_extract, h0]
  · simp only [worker_extract, analyzer_extract, h0, Bool.false_eq_true, if_false]
    cases htag : taggedFenceBlock (pyStrip response) with
    | some c => left; rfl
    | none =>
      cases hany : anyFenceBlock (pyStrip response) with
      | some c => left; rfl
      | none => right; exact ⟨rfl, rfl⟩

theorem executeTaskGo_allFail (steps : List AttemptResult) :
    ∀ (n : Nat) (lastErr : Option String) (rd : Option Envelope),
      (∀ st ∈ steps, attemptFails st) →
      (executeTaskGo steps n lastErr rd).success = false
        ∧ (executeTaskGo steps n lastErr rd).attempts = n + steps.length := by
  induction steps with
  | nil =>
    intro n lastErr rd _
    exact ⟨rfl, by simp [executeTaskGo]⟩
  | cons st rest ih =>
    intro n lastErr rd h
    have h1 : ∀ x ∈ rest, attemptFails x := fun x hx => h x (by simp [hx])
    cases st with
    | insufficientCode =>
      obtain ⟨ha, hb⟩ := ih (n + 1) (some ("LLM returned empty or insufficient code")) rd h1
      exact ⟨ha, by simp only [executeTaskGo]; rw [hb]; simp; omega⟩
    | execError e =>
      obtain ⟨ha, hb⟩ := ih (n + 1) (some e) rd h1
      exact ⟨ha, by simp only [executeTaskGo]; rw [hb]; simp; omega⟩
    | parsed env =>
      have hs0 : attemptFails (AttemptResult.parsed env) :=
        h (AttemptResult.parsed env) (by simp)
      have hs : env.success = false := hs0
      obtain ⟨ha, hb⟩ := ih (n + 1) (some (envFailureError env)) (some env) h1
      constructor
      · simpa [executeTaskGo, hs] using ha
      · have : executeTaskGo (AttemptResult.parsed env :: rest) n lastErr rd =
            executeTaskGo rest (n + 1) (some (envFailureError env)) (some env) := by
          simp [executeTaskGo, hs]
        rw [this, hb]
        simp
        omega

theorem executeTaskGo_lastError :
    ∀ (rest : List AttemptResult) (st : AttemptResult) (n : Nat) (lastErr : Option String)
      (rd : Option Envelope), (∀ x ∈ st :: rest, attemptFails x) →
      ∀ last, (st :: rest).getLast? = some last →
        (executeTaskGo (st :: rest) n lastErr rd).last_error = some (attemptErrorText last) := by
  intro rest
  induction rest with
  | nil =>
    intro st n lastErr rd h last hl
    have hst : last = st := by simpa using hl.symm
    subst hst
    cases last with
    | insufficientCode => rfl
    | execError e => rfl
    | parsed env =>
      have hs0 : attemptFails (AttemptResult.parsed env) :=
        h (AttemptResult.parsed env) (by simp)
      have hs : env.success = false := hs0
      simp [executeTaskGo, hs, attemptErrorText]
  | cons y t ih =>
    intro st n lastErr rd h last hl
    have hl1 : (y :: t).getLast? = some last := by
      simpa [List.getLast?_cons_cons] using hl
    have h1 : ∀ x ∈ y :: t, attemptFails x := fun x hx => h x (by simp at hx ⊢; tauto)
    cases st with
    | insufficientCode =>
      simpa [executeTaskGo] using
        ih y (n + 1) (some ("LLM returned empty or insufficient code")) rd h1 last hl1
    | execError e =>
      simpa [executeTaskGo] using ih y (n + 1) (some e) rd h1 last hl1
    | parsed env =>
      have hs0 : attemptFails (AttemptResult.parsed env) :=
        h (AttemptResult.parsed env) (by simp)
      have hs : env.success = false := hs0
      simpa [executeTaskGo, hs] using
        ih y (n + 1) (some (envFailureError env)) (some env) h1 last hl1

/-- **C1.**  When every one of the `N = max_attempts` attempts fails (too
little generated code, an execution error, or an unsuccessful parsed
envelope), `execute_task` returns `success = false` with `attempts = N`
exactly, and `last_error` carries the error recorded for the final
attempt. -/
theorem c1_retry_exhaustion (N : Nat) (steps : List AttemptResult)
    (hlen : steps.length = N) (hfail : ∀ st ∈ steps, attemptFails st) :
    (execute_task steps).success = false ∧ (execute_task steps).attempts = N
      ∧ ∀ last, steps.getLast? = some last →
          (execute_task steps).last_error = some (attemptErrorText last) := by
  obtain ⟨h1, h2⟩ := executeTaskGo_allFail steps 0 none none hfail
  refine ⟨h1, by rw [execute_task, h2, Nat.zero_add, hlen], ?_⟩
  intro last hl
  cases steps with
  | nil => simp at hl
  | cons st rest => exact executeTaskGo_lastError rest st 0 none none hfail last hl

/-- **C1 witness**: three failing attempts of the three kinds, ending with an
unsuccessful envelope whose error is carried out. -/
theorem c1_retry_exhaustion_witness :
    (execute_task [AttemptResult.insufficientCode, AttemptResult.execError ("boom"),
        AttemptResult.parsed { success := false, error := some ("late"), message := none }]).success
        = false
      ∧ (execute_task [AttemptResult.insufficientCode, AttemptResult.execError ("boom"),
          AttemptResult.parsed { success := false, error := some ("late"), message := none }]).attempts = 3
      ∧ (execute_task [AttemptResult.insufficientCode, AttemptResult.execError ("boom"),
          AttemptResult.parsed { success := false, error := some ("late"), message := none }]).last_error = some ("late") := by
  have h := c1_retry_exhaustion 3
    [AttemptResult.insufficientCode, AttemptResult.execError ("boom"),
      AttemptResult.parsed { success := false, error := some ("late"), message := none }]
    (by decide)
    (by
      intro st hst
      simp only [List.mem_cons, List.not_mem_nil, or_false] at hst
      rcases hst with rfl | rfl | rfl
      · trivial
      · trivial
      · rfl)
  refine ⟨h.1, h.2.1, ?_⟩
  have := h.2.2 _ rfl
  simpa [attemptErrorText, envFailureError, pyOrStr] using this

theorem migrationLoop_characterize (tasks : List TaskSpec) :
    ∀ (completed failed : List String) (log : List LogEntry),
      migrationLoop tasks completed failed log =
        (completed ++ (tasks.filter (fun t => (execute_task t.steps).success)).map
            (fun t => t.id),
         failed ++ (tasks.filter (fun t => !(execute_task t.steps).success)).map
            (fun t => t.id),
         log ++ tasks.map (fun t =>
            { task_id := t.id,
              status := if (execute_task t.steps).success then "success" else "failed",
              attempts := (execute_task t.steps).attempts })) := by
  induction tasks with
  | nil => intro c f l; simp [migrationLoop]
  | cons t rest ih =>
    intro c f l
    cases hs : (execute_task t.steps).success with
    | true =>
      simp only [migrationLoop, hs, if_pos, List.filter_cons, List.map_cons]
      rw [ih]
      simp [hs]
    | false =>
      simp only [migrationLoop, hs, Bool.false_eq_true, if_false, List.filter_cons,
        List.map_cons]
      rw [ih]
      simp [hs]

/-- **C6.**  `execute_migration` runs its units strictly in sequence (the log
lists exactly the input task ids in input order, so a failed unit never
prevents a later unit from being attempted), the report's counters
partition the tasks (`completed_tasks + failed_tasks = total_tasks`), each
task id lands in exactly one of the id lists, and `success` holds exactly
when no task failed. -/
theorem c6_partial_completion (tasks : List TaskSpec)
    (hnodup : (tasks.map (fun t => t.id)).Nodup) :
    (execute_migration tasks).completed_tasks + (execute_migration tasks).failed_tasks
        = (execute_migration tasks).total_tasks
      ∧ (execute_migration tasks).execution_log.map (fun e => e.task_id)
          = tasks.map (fun t => t.id)
      ∧ (∀ t ∈ tasks,
          ((t.id ∈ (execute_migration tasks).completed_task_ids
              ∧ t.id ∉ (execute_migration tasks).failed_task_ids)
            ∨ (t.id ∈ (execute_migration tasks).failed_task_ids
              ∧ t.id ∉ (execute_migration tasks).completed_task_ids)))
      ∧ ((execute_migration tasks).success = true
          ↔ (execute_migration tasks).failed_tasks = 0) := by
  have hchar := migrationLoop_characterize tasks [] [] []
  have hinj : ∀ x ∈ tasks, ∀ y ∈ tasks, x.id = y.id → x = y :=
    List.inj_on_of_nodup_map hnodup
  have hmemC : ∀ t ∈ tasks, (t.id ∈ (execute_migration tasks).completed_task_ids
      ↔ (execute_task t.steps).success = true) := by
    intro t ht
    simp only [execute_migration, hchar]
    simp only [List.nil_append, List.mem_map, List.mem_filter]
    constructor
    · rintro ⟨u, ⟨hu, hus⟩, hid⟩
      rw [hinj t ht u hu hid.symm]
      exact hus
    · intro hs
      exact ⟨t, ⟨ht, hs⟩, rfl⟩
  have hmemF : ∀ t ∈ tasks, (t.id ∈ (execute_migration tasks).failed_task_ids
      ↔ (execute_task t.steps).success = false) := by
    intro t ht
    simp only [execute_migration, hchar]
    simp only [List.nil_append, List.mem_map, List.mem_filter]
    constructor
    · rintro ⟨u, ⟨hu, hus⟩, hid⟩
      rw [hinj t ht u hu hid.symm]
      simpa using hus
    · intro hs
      exact ⟨t, ⟨ht, by simpa using hs⟩, rfl⟩
  refine ⟨?_, ?_, ?_, ?_⟩
  · simp only [execute_migration, hchar]
    simp only [List.nil_append, List.length_map]
    have hpart := List.length_eq_length_filter_add (l := tasks)
      (fun t => (execute_task t.steps).success)
    simp only [Bool.not_eq_true'] at hpart
    omega
  · simp only [execute_migration, hchar]
    simp [List.map_map]
  · intro t ht
    cases hs : (execute_task t.steps).success with
    | true =>
      left
      refine ⟨(hmemC t ht).mpr hs, ?_⟩
      intro hc
      have := (hmemF t ht).mp hc
      rw [hs] at this
      cases this
    | false =>
      right
      refine ⟨(hmemF t ht).mpr hs, ?_⟩
      intro hc
      have := (hmemC t ht).mp hc
      rw [hs] at this
      cases this
  · simp only [execute_migration, hchar]
    simp [beq_iff_eq]

/-- **C6 witness**: one unit succeeding on attempt 1, one failing all three
attempts — completed 1, failed 1, success false, and the instantiated
partition facts. -/
theorem c6_partial_completion_witness :
    ((execute_migration demoTasks).completed_tasks
          + (execute_migration demoTasks).failed_tasks
        = (execute_migration demoTasks).total_tasks
      ∧ (execute_migration demoTasks).execution_log.map (fun e => e.task_id)
          = demoTasks.map (fun t => t.id)
      ∧ (∀ t ∈ demoTasks,
          ((t.id ∈ (execute_migration demoTasks).completed_task_ids
              ∧ t.id ∉ (execute_migration demoTasks).failed_task_ids)
            ∨ (t.id ∈ (execute_migration demoTasks).failed_task_ids
              ∧ t.id ∉ (execute_migration demoTasks).completed_task_ids)))
      ∧ ((execute_migration demoTasks).success = true
          ↔ (execute_migration demoTasks).failed_tasks = 0))
      ∧ (execute_migration demoTasks).completed_tasks = 1
      ∧ (execute_migration demoTasks).failed_tasks = 1
      ∧ (execute_migration demoTasks).success = false := by
  exact ⟨c6_partial_completion demoTasks (by decide), by decide, by decide, by decide⟩

theorem runStability_constant_aux (fp : Fingerprint) :
    ∀ (j m : Nat),
      (List.replicate j fp).foldl (fun s x => stabilityUpdate s.1 s.2 x) (some fp, m)
        = (some fp, m + j) := by
  intro j
  induction j with
  | zero => intro m; simp
  | succ j ih =>
    intro m
    simp only [List.replicate_succ, List.foldl_cons]
    have hstep : stabilityUpdate (some fp) m fp = (some fp, m + 1) := by
      simp [stabilityUpdate]
    rw [hstep, ih]
    congr 1
    omega

/-- **C3.**  The stability counter is incremented exactly when the current
fingerprint equals the previous one and reset to 1 on any mismatch (in
particular on the first round); after `k` identical rounds the counter is
exactly `k`, so for `requiredRounds ≥ 1` stability first holds at round
`requiredRounds` and keeps holding while agreement continues. -/
theorem c3_stability_counter (fp : Fingerprint) (prev : Option Fingerprint)
    (rounds required k : Nat) (hreq : 1 ≤ required) :
    (stabilityUpdate (some fp) rounds fp).2 = rounds + 1
      ∧ (prev ≠ some fp → (stabilityUpdate prev rounds fp).2 = 1)
      ∧ (runStability (List.replicate k fp)).2 = k
      ∧ (stabilitySatisfied required (List.replicate k fp) = true ↔ required ≤ k)
      ∧ stabilitySatisfied required (List.replicate required fp) = true
      ∧ (k < required → stabilitySatisfied required (List.replicate k fp) = false) := by
  have hcnt : (runStability (List.replicate k fp)).2 = k := by
    cases k with
    | zero => rfl
    | succ j =>
      rw [runStability, List.replicate_succ, List.foldl_cons]
      have h0 : stabilityUpdate none 0 fp = (some fp, 1) := by
        simp [stabilityUpdate]
      rw [h0, runStability_constant_aux]
      omega
  have hcntR : (runStability (List.replicate required fp)).2 = required := by
    cases required with
    | zero => rfl
    | succ j =>
      rw [runStability, List.replicate_succ, List.foldl_cons]
      have h0 : stabilityUpdate none 0 fp = (some fp, 1) := by
        simp [stabilityUpdate]
      rw [h0, runStability_constant_aux]
      omega
  refine ⟨by simp [stabilityUpdate], ?_, hcnt, ?_, ?_, ?_⟩
  · intro hne
    simp [stabilityUpdate, hne]
  · rw [stabilitySatisfied, hcnt]
    simp
  · rw [stabilitySatisfied, hcntR]
    simp
  · intro hk
    rw [stabilitySatisfied, hcnt]
    simp
    omega

/-- **C3 witness**: with `requiredRounds = 2`, two agreeing rounds are stable,
a single round is not. -/
theorem c3_stability_counter_witness :
    (runStability (List.replicate 2 (build_fingerprint [dupNameT1]))).2 = 2
      ∧ stabilitySatisfied 2 (List.replicate 2 (build_fingerprint [dupNameT1])) = true
      ∧ stabilitySatisfied 2 (List.replicate 1 (build_fingerprint [dupNameT1])) = false := by
  have h := c3_stability_counter (build_fingerprint [dupNameT1]) none 0 2 2 (by omega)
  have h1 := c3_stability_counter (build_fingerprint [dupNameT1]) none 0 2 1 (by omega)
  exact ⟨h.2.2.1, h.2.2.2.2.1, h1.2.2.2.2.2 (by omega)⟩

theorem plannerHistoryAfter_length (n : Nat) :
    (plannerHistoryAfter n).length = 2 * n := by
  induction n with
  | zero => rfl
  | succ m ih => simp [plannerHistoryAfter, plannerStep, ih]; omega

/-- **C8** (amended).  After the first attempt the worker's request carries at
most the last 4 conversation turns (plus at most one fresh corrective user
message) and the schema analyzer's at most the last 8 (plus exactly one
fresh user message); the planner's `send_instruction`, however, carries
the entire accumulated history — it is not windowed. -/
theorem c8_conversation_window (sys fu ef ert rgt instr : String) (attempt iteration : Nat)
    (le1 le2 : Option String) (conv hist : List ChatMsg) :
    (attempt ≠ 1 →
      (pyTakeLast 4 conv).length ≤ 4
        ∧ ∃ tail, workerMessages sys fu ef attempt le1 conv
            = [{ role := "system", content := sys }] ++ pyTakeLast 4 conv ++ tail
          ∧ tail.length ≤ 1)
      ∧ (iteration ≠ 1 →
        (pyTakeLast 8 conv).length ≤ 8
          ∧ ∃ tail, analyzerMessages sys fu ert rgt iteration le2 conv
              = [{ role := "system", content := sys }] ++ pyTakeLast 8 conv ++ tail
            ∧ tail.length = 1)
      ∧ plannerMessages sys hist instr
          = [{ role := "system", content := sys }] ++ hist
              ++ [{ role := "user", content := instr }]
      ∧ (plannerMessages sys hist instr).length = hist.length + 2 := by
  refine ⟨?_, ?_, rfl, by simp [plannerMessages]⟩
  · intro hne
    refine ⟨by simp [pyTakeLast]; omega, ?_⟩
    cases ht : pyTruthy le1 with
    | true =>
      exact ⟨[{ role := "user", content := ef }], by simp [workerMessages, hne, ht], by simp⟩
    | false =>
      exact ⟨[], by simp [workerMessages, hne, ht], by simp⟩
  · intro hne
    refine ⟨by simp [pyTakeLast]; omega, ?_⟩
    refine ⟨[{ role := "user", content := if pyTruthy le2 then ert else rgt }], ?_, by simp⟩
    simp [analyzerMessages, hne]

/-- **C8 witness**: a worker request on attempt 2 over a 6-turn conversation
carries exactly the last 4 turns. -/
theorem c8_conversation_window_witness :
    (pyTakeLast 4 (plannerHistoryAfter 3)).length ≤ 4
      ∧ ∃ tail, workerMessages ("s") ("f") ("e") 2 (some ("err")) (plannerHistoryAfter 3)
          = [{ role := "system", content := "s" }] ++ pyTakeLast 4 (plannerHistoryAfter 3) ++ tail
        ∧ tail.length ≤ 1 := by
  exact (c8_conversation_window ("s") ("f") ("e") ("x") ("y") ("q") 2 2 (some ("err"))
    (some ("err")) (plannerHistoryAfter 3) []).1 (by omega)

/-- **C8 counterexample.**  The planner's requests are not windowed by any
fixed constant: after `n` exchanges the history holds `2n` turns and the
next request includes all of them; concretely, after 5 exchanges the
request carries all 10 accumulated turns (more than the 4- and 8-turn
windows used elsewhere), and no constant bounds the request length over
all runs. -/
theorem c8_counterexample :
    (plannerHistoryAfter 5).length = 10
      ∧ plannerMessages ("s") (plannerHistoryAfter 5) ("q")
          = [{ role := "system", content := "s" }] ++ plannerHistoryAfter 5
              ++ [{ role := "user", content := "q" }]
      ∧ (plannerMessages ("s") (plannerHistoryAfter 5) ("q")).length = 12
      ∧ ¬ ∃ K, ∀ n, (plannerMessages ("s") (plannerHistoryAfter n) ("q")).length ≤ K := by
  refine ⟨by decide, rfl, by decide, ?_⟩
  rintro ⟨K, hK⟩
  have h1 := hK (K + 1)
  have h2 : (plannerMessages ("s") (plannerHistoryAfter (K + 1)) ("q")).length
      = (plannerHistoryAfter (K + 1)).length + 2 := by
    simp [plannerMessages]
  rw [h2, plannerHistoryAfter_length] at h1
  omega

/-- **C9.**  Whenever the execution session was successfully started inside a
phase, the phase's event trace ends with a shutdown: both
`analyze_schema` (via its `finally`, on the normal and the caught-escape
path alike) and `execute_migration` (via its `try/finally`, whether or not
the body propagates an exception) emit `started` only immediately followed
by `shutdown`. -/
theorem c9_session_shutdown (required maxIter : Nat) (startOk startOk2 bodyEsc : Bool)
    (env : Nat → IterStep) :
    (SessEvent.started ∈ (analyze_schema required maxIter startOk env).2 →
        (analyze_schema required maxIter startOk env).2
          = [SessEvent.started, SessEvent.shutdown])
      ∧ (SessEvent.started ∈ (executeMigrationEvents startOk2 bodyEsc).1 →
        (executeMigrationEvents startOk2 bodyEsc).1
          = [SessEvent.started, SessEvent.shutdown]) := by
  constructor
  · intro h
    cases startOk with
    | true => simp [analyze_schema]
    | false => simp [analyze_schema] at h
  · intro h
    cases startOk2 with
    | true => simp [executeMigrationEvents]
    | false => simp [executeMigrationEvents] at h

/-- **C9 witness**: a run whose discovery loop makes no progress still starts
and then shuts the session down, as does an execution phase whose body
propagates an exception. -/
theorem c9_session_shutdown_witness :
    (analyze_schema 2 7 true (fun _ => IterStep.insufficientCode)).2
        = [SessEvent.started, SessEvent.shutdown]
      ∧ (executeMigrationEvents true true).1 = [SessEvent.started, SessEvent.shutdown] := by
  have h := c9_session_shutdown 2 7 true true true (fun _ => IterStep.insufficientCode)
  exact ⟨h.1 (by decide), h.2 (by decide)⟩

/-- **C10.**  When an exception escapes the per-iteration handling of the
discovery loop (including a session startup failure), `analyze_schema`
discards everything discovered so far: the result has `success = false`,
`satisfied = false` and neither report file, regardless of what earlier
iterations had found. -/
theorem c10_discovery_abort (required maxIter : Nat) (startOk : Bool) (env : Nat → IterStep)
    (h : startOk = false ∨ (analyzeLoop required env maxIter initLoopState).2 = true) :
    (analyze_schema required maxIter startOk env).1.success = false
      ∧ (analyze_schema required maxIter startOk env).1.satisfied = false
      ∧ (analyze_schema required maxIter startOk env).1.analysis_file = none
      ∧ (analyze_schema required maxIter startOk env).1.schema_file = none := by
  rcases h with h | h
  · subst h
    simp [analyze_schema]
  · cases startOk with
    | false => simp [analyze_schema]
    | true => simp [analyze_schema, h]

/-- **C10 witness**: the first iteration discovers a table, the second raises
outside the guarded block — the discovery is discarded and no files are
reported. -/
theorem c10_discovery_abort_witness :
    (analyze_schema 2 7 true c10Env).1.success = false
      ∧ (analyze_schema 2 7 true c10Env).1.satisfied = false
      ∧ (analyze_schema 2 7 true c10Env).1.analysis_file = none
      ∧ (analyze_schema 2 7 true c10Env).1.schema_file = none := by
  exact c10_discovery_abort 2 7 true c10Env (Or.inr (by decide))

/-- **C7 counterexample.**  The worker's `_extract_code` has no line-scan
tier: on prose followed by a code line it returns the whole input while
the four-step algorithm (and the analyzer) returns just the code; and on
a fence-less, code-less input both versions return the *stripped* input,
not the input unchanged. -/
theorem c7_counterexample :
    worker_extract (("Take this:\nimport os").toList) = ("Take this:\nimport os").toList
      ∧ analyzer_extract (("Take this:\nimport os").toList) = ("import os").toList
      ∧ analyzer_extract (("  hello  ").toList) = ("hello").toList := by
  exact ⟨by decide, by decide, by decide⟩

/-! C5: fingerprint ordering lemmas. -/

theorem sortByName_perm (l : List Table) : List.Perm (sortByName l) l :=
  List.perm_insertionSort _ l

theorem sortByName_sorted (l : List Table) :
    List.Sorted (fun a b : Table => a.table_name ≤ b.table_name) (sortByName l) := by
  haveI : IsTotal Table (fun a b : Table => a.table_name ≤ b.table_name) :=
    ⟨fun a b => le_total _ _⟩
  haveI : IsTrans Table (fun a b : Table => a.table_name ≤ b.table_name) :=
    ⟨fun _ _ _ hab hbc => le_trans hab hbc⟩
  exact List.sorted_insertionSort _ l

theorem perm_pairwise_strict_eq :
    ∀ {l1 l2 : List Table}, List.Perm l1 l2 →
      l1.Pairwise (fun a b : Table => a.table_name < b.table_name) →
      l2.Pairwise (fun a b : Table => a.table_name < b.table_name) →
      l1 = l2 := by
  intro l1
  induction l1 with
  | nil =>
    intro l2 hp _ _
    exact hp.nil_eq
  | cons a t ih =>
    intro l2 hp h1 h2
    cases l2 with
    | nil => exact (List.cons_ne_nil a t hp.eq_nil).elim
    | cons b t2 =>
      by_cases hab : a = b
      · subst hab
        rw [ih hp.cons_inv (List.Pairwise.of_cons h1) (List.Pairwise.of_cons h2)]
      · exfalso
        have hbmem : b ∈ a :: t := hp.symm.subset (by simp)
        have hamem : a ∈ b :: t2 := hp.subset (by simp)
        have hbt : b ∈ t := by
          rcases List.mem_cons.mp hbmem with h | h
          · exact absurd h.symm hab
          · exact h
        have hat2 : a ∈ t2 := by
          rcases List.mem_cons.mp hamem with h | h
          · exact absurd h hab
          · exact h
        have hlt1 : a.table_name < b.table_name := List.rel_of_pairwise_cons h1 hbt
        have hlt2 : b.table_name < a.table_name := List.rel_of_pairwise_cons h2 hat2
        exact absurd hlt1 (not_lt_of_lt hlt2)

theorem pairwise_strict_of_sorted_nodup {l : List Table}
    (hs : List.Sorted (fun a b : Table => a.table_name ≤ b.table_name) l)
    (hn : (l.map (fun t => t.table_name)).Nodup) :
    l.Pairwise (fun a b : Table => a.table_name < b.table_name) := by
  have hn1 : l.Pairwise (fun a b : Table => a.table_name ≠ b.table_name) :=
    List.pairwise_map.mp hn
  exact (hs.and hn1).imp (fun h => lt_of_le_of_ne h.1 h.2)

theorem exceptAt_orderedInsert {t t' : Table} (hkey : t.table_name = t'.table_name)
    (a : Table) :
    ∀ {l l' : List Table}, ExceptAt t t' l l' →
      ExceptAt t t' (List.orderedInsert (fun x b : Table => x.table_name ≤ b.table_name) a l)
        (List.orderedInsert (fun x b : Table => x.table_name ≤ b.table_name) a l') := by
  intro l l' h
  induction h with
  | here l0 =>
    simp only [List.orderedInsert]
    by_cases hc : a.table_name ≤ t.table_name
    · rw [if_pos hc, if_pos (hkey ▸ hc)]
      exact ExceptAt.there a (ExceptAt.here l0)
    · rw [if_neg hc, if_neg (hkey ▸ hc)]
      exact ExceptAt.here _
  | there b h ih =>
    simp only [List.orderedInsert]
    by_cases hc : a.table_name ≤ b.table_name
    · rw [if_pos hc, if_pos hc]
      exact ExceptAt.there a (ExceptAt.there b h)
    · rw [if_neg hc, if_neg hc]
      exact ExceptAt.there b ih

theorem exceptAt_insert_self {t t' : Table} (hkey : t.table_name = t'.table_name) :
    ∀ (l : List Table),
      ExceptAt t t' (List.orderedInsert (fun x b : Table => x.table_name ≤ b.table_name) t l)
        (List.orderedInsert (fun x b : Table => x.table_name ≤ b.table_name) t' l) := by
  intro l
  induction l with
  | nil => exact ExceptAt.here []
  | cons b l ih =>
    simp only [List.orderedInsert]
    by_cases hc : t.table_name ≤ b.table_name
    · rw [if_pos hc, if_pos (hkey ▸ hc)]
      exact ExceptAt.here _
    · rw [if_neg hc, if_neg (hkey ▸ hc)]
      exact ExceptAt.there b ih

theorem exceptAt_sortByName {t t' : Table} (hkey : t.table_name = t'.table_name) :
    ∀ (l1 l2 : List Table),
      ExceptAt t t' (sortByName (l1 ++ t :: l2)) (sortByName (l1 ++ t' :: l2)) := by
  intro l1
  induction l1 with
  | nil =>
    intro l2
    simp only [sortByName, List.nil_append, List.insertionSort]
    exact exceptAt_insert_self hkey _
  | cons a l1 ih =>
    intro l2
    simp only [sortByName, List.cons_append, List.insertionSort]
    exact exceptAt_orderedInsert hkey a (ih l2)

theorem exceptAt_map_ne {t t' : Table} (hne : fpEntry t ≠ fpEntry t') :
    ∀ {l l' : List Table}, ExceptAt t t' l l' → l.map fpEntry ≠ l'.map fpEntry := by
  intro l l' h
  induction h with
  | here l0 => simp [hne]
  | there b h ih => simp [ih]

/-- **C5** (amended).  Fingerprint equality is insensitive to entity ordering
for catalogs with distinct table names (any permutation gives an equal
fingerprint), and it is sensitive exactly to the captured per-table data:
replacing one table by a same-named table whose captured tuple (row count,
column-*name* sequence, primary-key sequence, or foreign-key
`(referred_table, constrained_columns, referred_columns)` signature
sequence) differs changes the fingerprint.  Reorderings that leave every
captured sequence unchanged — e.g. swapping two distinct columns that
share a name — do not change it, and permutation-insensitivity can fail
when two tables share a name. -/
theorem c5_fingerprint_sensitivity (l1 l2 p q : List Table) (t t' : Table)
    (hn : (l1.map (fun tb => tb.table_name)).Nodup) (hp : List.Perm l1 l2)
    (hkey : t.table_name = t'.table_name) (hne : fpEntry t ≠ fpEntry t') :
    build_fingerprint l1 = build_fingerprint l2
      ∧ build_fingerprint (p ++ t :: q) ≠ build_fingerprint (p ++ t' :: q) := by
  constructor
  · have hn2 : (l2.map (fun tb => tb.table_name)).Nodup :=
      ((hp.map (fun tb => tb.table_name)).nodup_iff).mp hn
    have hns1 : ((sortByName l1).map (fun tb => tb.table_name)).Nodup :=
      (((sortByName_perm l1).map (fun tb => tb.table_name)).nodup_iff).mpr hn
    have hns2 : ((sortByName l2).map (fun tb => tb.table_name)).Nodup :=
      (((sortByName_perm l2).map (fun tb => tb.table_name)).nodup_iff).mpr hn2
    have hperm : List.Perm (sortByName l1) (sortByName l2) :=
      (sortByName_perm l1).trans (hp.trans (sortByName_perm l2).symm)
    have heq : sortByName l1 = sortByName l2 :=
      perm_pairwise_strict_eq hperm
        (pairwise_strict_of_sorted_nodup (sortByName_sorted l1) hns1)
        (pairwise_strict_of_sorted_nodup (sortByName_sorted l2) hns2)
    rw [build_fingerprint, build_fingerprint, heq]
  · exact exceptAt_map_ne hne (exceptAt_sortByName hkey p q)

/-- **C5 counterexample.**  As stated, the claim fails twice: permuting two
tables that share a name changes the fingerprint, and swapping two
*distinct* columns that share a name (differing only in type, which the
fingerprint does not capture) leaves the fingerprint unchanged. -/
theorem c5_counterexample :
    build_fingerprint [dupNameT1, dupNameT2] ≠ build_fingerprint [dupNameT2, dupNameT1]
      ∧ colIntA ≠ colTextA
      ∧ build_fingerprint [twoColTable [colIntA, colTextA]]
          = build_fingerprint [twoColTable [colTextA, colIntA]] := by
  refine ⟨by decide, by decide, by decide⟩

/-- **C5 witness**: permutation invariance on a two-table catalog with
distinct names, and sensitivity to a changed row count under a fixed
name. -/
theorem c5_fingerprint_sensitivity_witness :
    build_fingerprint [mkTable ("A") [], mkTable ("B") []]
        = build_fingerprint [mkTable ("B") [], mkTable ("A") []]
      ∧ build_fingerprint [dupNameT1] ≠ build_fingerprint [dupNameT2] := by
  have h := c5_fingerprint_sensitivity [mkTable ("A") [], mkTable ("B") []]
    [mkTable ("B") [], mkTable ("A") []] [] [] dupNameT1 dupNameT2
    (by decide) (by decide) (by decide) (by decide)
  exact ⟨h.1, h.2⟩

/-! C2: dependency orderer lemmas. -/

theorem pyDictKeys_mem :
    ∀ (xs acc : List String) (y : String), y ∈ pyDictKeys acc xs ↔ y ∈ acc ∨ y ∈ xs := by
  intro xs
  induction xs with
  | nil => intro acc y; simp [pyDictKeys]
  | cons x t ih =>
    intro acc y
    simp only [pyDictKeys]
    by_cases hx : x ∈ acc
    · rw [if_pos hx, ih]
      have hyx : y = x → y ∈ acc := fun h => h ▸ hx
      simp only [List.mem_cons]
      tauto
    · rw [if_neg hx, ih]
      simp only [List.mem_append, List.mem_singleton, List.mem_cons]
      tauto

theorem pyDictKeys_nodup : ∀ (xs acc : List String), acc.Nodup → (pyDictKeys acc xs).Nodup := by
  intro xs
  induction xs with
  | nil => intro acc h; exact h
  | cons x t ih =>
    intro acc h
    simp only [pyDictKeys]
    by_cases hx : x ∈ acc
    · rw [if_pos hx]
      exact ih acc h
    · rw [if_neg hx]
      refine ih _ ?_
      simp [List.nodup_append, h, hx]

theorem depKeys_nodup (tables : List Table) : (depKeys tables).Nodup :=
  pyDictKeys_nodup _ [] List.nodup_nil

theorem mem_depKeys {tables : List Table} {y : String} :
    y ∈ depKeys tables ↔ y ∈ tables.map (fun t => t.table_name) := by
  rw [depKeys, pyDictKeys_mem]
  simp

theorem tableDeps_self_not_mem (t : Table) : t.table_name ∉ tableDeps t := by
  intro h
  rw [tableDeps, List.mem_filter] at h
  simp at h

theorem depsOf_self_not_mem (tables : List Table) (u : String) : u ∉ depsOf tables u := by
  rw [depsOf]
  cases hg : (tables.filter (fun t => t.table_name == u)).getLast? with
  | none => simp
  | some t =>
    have ht : t ∈ tables.filter (fun tb => tb.table_name == u) := by
      obtain ⟨hne, heq⟩ :=
        List.mem_getLast?_eq_getLast (l := tables.filter (fun tb => tb.table_name == u))
          (x := t) (by simp [hg])
      rw [heq]
      exact List.getLast_mem hne
    have hname : t.table_name = u := by
      have h2 := (List.mem_filter.mp ht).2
      simpa using h2
    rw [← hname]
    exact tableDeps_self_not_mem t

theorem topoLoop_perm (tables : List Table) :
    ∀ (fuel : Nat) (acc remaining : List String),
      List.Perm (topoLoop tables fuel acc remaining) (acc ++ remaining) := by
  intro fuel
  induction fuel with
  | zero => intro acc r; exact List.Perm.refl _
  | succ f ih =>
    intro acc r
    simp only [topoLoop]
    by_cases hr : r.isEmpty = true
    · rw [if_pos hr]
      rw [List.isEmpty_iff.mp hr]
      simp
    · rw [if_neg hr]
      cases hf : r.find? (emitable tables r) with
      | none => exact List.Perm.refl _
      | some t =>
        have htr : t ∈ r := List.mem_of_find?_eq_some hf
        refine (ih (acc ++ [t]) (r.erase t)).trans ?_
        have heq : (acc ++ [t]) ++ r.erase t = acc ++ (t :: r.erase t) := by simp
        rw [heq]
        exact List.Perm.append_left acc (List.perm_cons_erase htr).symm

theorem emitable_iff (tables : List Table) (r : List String) (t : String) :
    emitable tables r t = true ↔ ∀ d ∈ depsOf tables t, d ∉ r := by
  rw [emitable, List.all_eq_true]
  constructor
  · intro h d hd
    have h2 := h d hd
    simpa [List.contains_iff_exists_mem_beq] using h2
  · intro h d hd
    have h2 := h d hd
    simpa [List.contains_iff_exists_mem_beq] using h2

theorem acyclic_exists_emitable (tables : List Table) (hacyc : AcyclicDeps tables) :
    ∀ (S : List String), S ≠ [] → (∀ s ∈ S, s ∈ depKeys tables) →
      ∃ t ∈ S, ∀ d ∈ depsOf tables t, d ∉ S := by
  intro S hne hsub
  classical
  haveI : Fintype { x : String // x ∈ depKeys tables } := List.Subtype.fintype (depKeys tables)
  set r : { x : String // x ∈ depKeys tables } → { x : String // x ∈ depKeys tables } → Prop :=
    fun a b => DepEdge tables b.val a.val with hrdef
  have hlift : ∀ {a b : { x : String // x ∈ depKeys tables }}, Relation.TransGen r a b →
      Relation.TransGen (Function.swap (DepEdge tables)) a.val b.val := by
    intro a b h
    induction h with
    | single h1 => exact Relation.TransGen.single h1
    | tail h1 h2 ih => exact Relation.TransGen.tail ih h2
  haveI hirr : IsIrrefl { x : String // x ∈ depKeys tables } (Relation.TransGen r) := by
    constructor
    intro a ha
    exact hacyc a.val (Relation.transGen_swap.mp (hlift ha))
  haveI htr : IsTrans { x : String // x ∈ depKeys tables } (Relation.TransGen r) :=
    ⟨fun _ _ _ h1 h2 => h1.trans h2⟩
  have hwfT : WellFounded (Relation.TransGen r) := Finite.wellFounded_of_trans_of_irrefl _
  have hwfr : WellFounded r :=
    Subrelation.wf (fun {a b} h => Relation.TransGen.single h) hwfT
  obtain ⟨s0, hs0⟩ := List.exists_mem_of_ne_nil S hne
  obtain ⟨m, hm, hmin⟩ :=
    hwfr.has_min { a : { x : String // x ∈ depKeys tables } | a.val ∈ S }
      ⟨⟨s0, hsub s0 hs0⟩, hs0⟩
  refine ⟨m.val, hm, ?_⟩
  intro d hd hdS
  have hdK : d ∈ depKeys tables := hsub d hdS
  exact hmin ⟨d, hdK⟩ hdS ⟨hd, m.property, hdK⟩

theorem topoLoop_order (tables : List Table)
    (hsrc : ∀ (S : List String), S ≠ [] → (∀ s ∈ S, s ∈ depKeys tables) →
      ∃ t ∈ S, ∀ d ∈ depsOf tables t, d ∉ S) :
    ∀ (fuel : Nat) (acc remaining : List String),
      fuel = remaining.length →
      (∀ s ∈ remaining, s ∈ depKeys tables) →
      (∀ k ∈ depKeys tables, k ∈ acc ∨ k ∈ remaining) →
      (∀ j u, acc.get? j = some u → ∀ d, d ∈ depsOf tables u → d ∈ depKeys tables →
        ∃ i, i < j ∧ acc.get? i = some d) →
      ∀ j u, (topoLoop tables fuel acc remaining).get? j = some u →
        ∀ d, d ∈ depsOf tables u → d ∈ depKeys tables →
          ∃ i, i < j ∧ (topoLoop tables fuel acc remaining).get? i = some d := by
  intro fuel
  induction fuel with
  | zero =>
    intro acc r hfuel hsub hcover hgood
    have hr : r = [] := List.length_eq_zero.mp hfuel.symm
    subst hr
    intro j u hget d hd hdk
    simp only [topoLoop] at hget ⊢
    obtain ⟨i, hi, hgi⟩ := hgood j u (by simpa using hget) d hd hdk
    exact ⟨i, hi, by simpa using hgi⟩
  | succ f ih =>
    intro acc r hfuel hsub hcover hgood
    by_cases hr : r.isEmpty = true
    · exfalso
      rw [List.isEmpty_iff.mp hr] at hfuel
      simp at hfuel
    · have hrne : r ≠ [] := fun h => hr (by simp [h])
      cases hf : r.find? (emitable tables r) with
      | none =>
        exfalso
        obtain ⟨t, htr, hprop⟩ := hsrc r hrne hsub
        have hemit : emitable tables r t = true := (emitable_iff tables r t).mpr hprop
        have := List.find?_eq_none.mp hf t htr
        rw [hemit] at this
        exact this rfl
      | some t =>
        have htr : t ∈ r := List.mem_of_find?_eq_some hf
        have hemit : emitable tables r t = true := List.find?_some hf
        have hstep : topoLoop tables (f + 1) acc r = topoLoop tables f (acc ++ [t]) (r.erase t) := by
          simp only [topoLoop]
          rw [if_neg hr, hf]
        rw [hstep]
        -- establish the invariants for the recursive call
        have hlen : f = (r.erase t).length := by
          rw [List.length_erase_of_mem htr]
          have : 1 ≤ r.length := List.length_pos.mpr hrne
          omega
        have hsub1 : ∀ s ∈ r.erase t, s ∈ depKeys tables :=
          fun s hs => hsub s (List.mem_of_mem_erase hs)
        have hcover1 : ∀ k ∈ depKeys tables, k ∈ acc ++ [t] ∨ k ∈ r.erase t := by
          intro k hk
          rcases hcover k hk with hka | hkr
          · exact Or.inl (List.mem_append_left _ hka)
          · by_cases hkt : k = t
            · exact Or.inl (List.mem_append_right _ (by simp [hkt]))
            · exact Or.inr ((List.mem_erase_of_ne hkt).mpr hkr)
        have hgood1 : ∀ j u, (acc ++ [t]).get? j = some u →
            ∀ d, d ∈ depsOf tables u → d ∈ depKeys tables →
              ∃ i, i < j ∧ (acc ++ [t]).get? i = some d := by
          intro j u hget d hd hdk
          have hjlt : j < acc.length + 1 := by
            by_contra hge
            rw [List.get?_eq_none.mpr (by simp; omega)] at hget
            cases hget
          by_cases hja : j < acc.length
          · rw [List.get?_append hja] at hget
            obtain ⟨i, hi, hgi⟩ := hgood j u hget d hd hdk
            have hia : i < acc.length := by omega
            exact ⟨i, hi, by rw [List.get?_append hia]; exact hgi⟩
          · have hj : j = acc.length := by omega
            subst hj
            rw [List.get?_concat_length] at hget
            obtain rfl : t = u := Option.some.inj hget
            have hdnr : d ∉ r := (emitable_iff tables r t).mp hemit d hd
            have hda : d ∈ acc := by
              rcases hcover d hdk with h | h
              · exact h
              · exact absurd h hdnr
            obtain ⟨i, hgi⟩ := List.get?_of_mem hda
            have hia : i < acc.length := by
              by_contra hge
              rw [List.get?_eq_none.mpr (by omega)] at hgi
              cases hgi
            exact ⟨i, hia, by rw [List.get?_append hia]; exact hgi⟩
        exact ih (acc ++ [t]) (r.erase t) hlen hsub1 hcover1 hgood1

/-- **C2** (amended).  The dependency orderer of `_build_mega_tasks`, for
every iteration order `enum` the `remaining` set may present (any
duplicate-free listing of the unit keys): self-dependencies are stripped
before ordering; the output is always a permutation of `enum` (hence of
the duplicate-free unit list), so the loop terminates and emits every
unit exactly once, cycles included; and for an acyclic dependency graph
every dependency of a unit that is itself a unit of the input precedes
that unit in the output.  When a cycle is present, the remaining cyclic
units are appended in the set's iteration order, which is a hash-table
artifact and NOT necessarily their original input order. -/
theorem c2_dependency_orderer (tables : List Table) (enum : List String)
    (henum : enum.Nodup)
    (hsub : ∀ x ∈ enum, x ∈ depKeys tables)
    (hsup : ∀ x ∈ depKeys tables, x ∈ enum) :
    (∀ t : Table, t.table_name ∉ tableDeps t)
      ∧ (∀ u : String, u ∉ depsOf tables u)
      ∧ List.Perm (orderedTables tables enum) enum
      ∧ (orderedTables tables enum).Nodup
      ∧ (depKeys tables).Nodup
      ∧ (AcyclicDeps tables →
          ∀ u d, u ∈ depKeys tables → d ∈ depsOf tables u → d ∈ depKeys tables →
            ∃ i j, i < j ∧ (orderedTables tables enum).get? i = some d
              ∧ (orderedTables tables enum).get? j = some u) := by
  have hperm0 : List.Perm (orderedTables tables enum) enum := by
    have h := topoLoop_perm tables enum.length [] enum
    simpa [orderedTables] using h
  refine ⟨tableDeps_self_not_mem, depsOf_self_not_mem tables, hperm0,
    hperm0.nodup_iff.mpr henum, depKeys_nodup tables, ?_⟩
  · intro hacyc u d hu hd hdk
    have hperm := topoLoop_perm tables enum.length [] enum
    have humem : u ∈ orderedTables tables enum := by
      rw [orderedTables]
      exact hperm.mem_iff.mpr (by simpa using hsup u hu)
    obtain ⟨j, hj⟩ := List.get?_of_mem humem
    obtain ⟨i, hij, hgi⟩ :=
      topoLoop_order tables (acyclic_exists_emitable tables hacyc)
        enum.length [] enum rfl hsub
        (fun k hk => Or.inr (hsup k hk)) (fun j u hget => by cases hget)
        j u (by simpa [orderedTables] using hj) d hd hdk
    exact ⟨i, j, hij, by simpa [orderedTables] using hgi, hj⟩

/-- **C2 counterexample.**  On the spec's 2-cycle `A↔B` plus independent `C`
(input order `A, B, C`), the set `remaining = {A, B, C}` may legitimately
iterate as `B, A, C` — a duplicate-free listing of exactly the unit keys —
and then the orderer emits `[C, B, A]`: the cyclic remainder comes out as
`B, A`, not in the original input order `A, B` the claim asserts. -/
theorem c2_counterexample :
    ([("B" : String), "A", "C"].Nodup
        ∧ (∀ x ∈ [("B" : String), "A", "C"], x ∈ depKeys cycTables)
        ∧ (∀ x ∈ depKeys cycTables, x ∈ [("B" : String), "A", "C"]))
      ∧ orderedTables cycTables [("B" : String), "A", "C"] = [("C" : String), "B", "A"]
      ∧ orderedTables cycTables [("B" : String), "A", "C"] ≠ [("C" : String), "A", "B"]
      ∧ orderedTables cycTables [("A" : String), "B", "C"] = [("C" : String), "A", "B"] := by
  exact ⟨⟨by decide, by decide, by decide⟩, by decide, by decide, by decide⟩

theorem acyclic_of_ranking (tables : List Table) (f : String → Nat)
    (h : ∀ x ∈ depKeys tables, ∀ d ∈ depsOf tables x, d ∈ depKeys tables → f d < f x) :
    AcyclicDeps tables := by
  intro t ht
  have hdec : ∀ a b, Relation.TransGen (DepEdge tables) a b → f b < f a := by
    intro a b hab
    induction hab with
    | single h1 => exact h _ h1.2.1 _ h1.1 h1.2.2
    | tail h1 h2 ih => exact lt_trans (h _ h2.2.1 _ h2.1 h2.2.2) ih
  exact absurd (hdec t t ht) (lt_irrefl _)

/-- **C2 witness**: on the acyclic chain `B` depends on `A`, `C` depends on
`B`, under the iteration order `C, A, B` the orderer puts `A` before `B`
(and the concrete output is `[A, B, C]`). -/
theorem c2_dependency_orderer_witness :
    (∃ i j, i < j
        ∧ (orderedTables chainTables [("C" : String), "A", "B"]).get? i = some ("A")
        ∧ (orderedTables chainTables [("C" : String), "A", "B"]).get? j = some ("B"))
      ∧ orderedTables chainTables [("C" : String), "A", "B"] = [("A" : String), "B", "C"] := by
  have hacyc : AcyclicDeps chainTables :=
    acyclic_of_ranking chainTables
      (fun s => if s = "A" then 0 else if s = "B" then 1 else 2) (by decide)
  exact ⟨(c2_dependency_orderer chainTables [("C" : String), "A", "B"]
      (by decide) (by decide) (by decide)).2.2.2.2.2 hacyc ("B") ("A")
    (by decide) (by decide) (by decide), by decide⟩

end SnowMig
